import Mathlib

/-!
The tfsec command line front end (`cmd/tfsec/main.go`).

A shallow embedding of `rootCmd.Run` and `highlightCode`, and the properties of
the presentation layer that the specification states about them.

Go's `int` is modelled as a mathematical integer together with the explicit
two's-complement wrap-around of the 64-bit targets (`wrapInt`).  Effects
(printing, calls into the parser, the scanner and the JSON encoder, `os.Exit`)
are modelled as an explicit trace plus an exit status.
-/

set_option autoImplicit false

namespace Tfsec

/-! ## Go `int` arithmetic -/

/-- Smallest value of Go's 64-bit `int`. -/
def minInt : Int := -(2 ^ 63)

/-- Largest value of Go's 64-bit `int`. -/
def maxInt : Int := 2 ^ 63 - 1

/-- Two's-complement wrap-around of a mathematical integer into the range of `int`. -/
def wrapInt (x : Int) : Int := (x + 2 ^ 63) % 2 ^ 64 - 2 ^ 63

/-- Go's `a + b` on `int`. -/
def goAdd (a b : Int) : Int := wrapInt (a + b)

/-- Go's `a - b` on `int`. -/
def goSub (a b : Int) : Int := wrapInt (a - b)

/-! ## Data model: `parser.Range` and `scanner.Result` as used by `main.go` -/

/-- The fields of `parser.Range` that `main.go` reads. -/
structure Range where
  Filename : String
  StartLine : Int
  EndLine : Int
deriving DecidableEq, Repr

/-- The fields of `scanner.Result` that `main.go` reads. -/
structure Result where
  Code : String
  Description : String
  Range : Range
  RangeAnnotation : String
deriving DecidableEq, Repr

/-! ## `highlightCode` -/

/-- The segments of `strings.Split(s, "\n")`, on the characters of `s`: the text
between consecutive newline characters; a string without a newline is one segment. -/
def splitNewline : List Char → List (List Char)
  | [] => [[]]
  | c :: cs =>
    if c = '\n' then [] :: splitNewline cs
    else
      match splitNewline cs with
      | [] => [[c]]
      | seg :: rest => (c :: seg) :: rest

/-- Go's `strings.Split(data, "\n")`. -/
def Split (data : String) : List String :=
  (splitNewline data.data).map String.mk

/-- The slice `lines := append([]string{""}, strings.Split(string(data), "\n")...)`. -/
def fileLines (data : String) : List String :=
  "" :: Split data

/-- Go's index expression `lines[i]`: `none` stands for the run-time panic
"index out of range". -/
def index (lines : List String) (i : Int) : Option String :=
  if 0 ≤ i then lines[i.toNat]? else none

/-- How the text of one line is printed. -/
inductive Rendering where
  /-- printed with `<bold><red>%s</red>    <blue>%s</blue></bold>\n`: the line, then the annotation -/
  | offendingAnnotated (text annotation : String)
  /-- printed with `<bold><red>%s</red></bold>\n` -/
  | offending (text : String)
  /-- printed with `<yellow>%s</yellow>\n` -/
  | context (text : String)
deriving DecidableEq, Repr

/-- The text of the source line shown by a rendering. -/
def Rendering.text : Rendering → String
  | .offendingAnnotated t _ => t
  | .offending t => t
  | .context t => t

/-- One thing written by `highlightCode`. -/
inductive Printed where
  /-- the line number (`"  <blue>% 6d</blue> | "`) followed by the rendered line -/
  | line (lineNo : Int) (body : Rendering)
  /-- the closing `fmt.Println("")` -/
  | blank
deriving DecidableEq, Repr

/-- How an execution of `highlightCode` ends. -/
inductive Status where
  /-- the function returned -/
  | returned
  /-- the line number `lineNo` was printed and `lines[lineNo]` was out of range -/
  | panicked (lineNo : Int)
  /-- the loop budget of the model was used up before the loop condition failed -/
  | outOfFuel
deriving DecidableEq, Repr

/-- What `highlightCode` wrote, and how it ended. -/
structure Output where
  printed : List Printed
  status : Status
deriving DecidableEq, Repr

/-- The body of the loop after the line number is printed: the branch on
`lineNo >= StartLine && lineNo <= EndLine`, then on
`lineNo == StartLine && RangeAnnotation != ""`. -/
def render (result : Result) (lineNo : Int) (text : String) : Rendering :=
  if lineNo ≥ result.Range.StartLine ∧ lineNo ≤ result.Range.EndLine then
    if lineNo = result.Range.StartLine ∧ result.RangeAnnotation ≠ "" then
      .offendingAnnotated text result.RangeAnnotation
    else
      .offending text
  else
    .context text

/-- The loop `for lineNo := start; lineNo <= end; lineNo++`, from the current
`lineNo`, with a budget of iterations.  The increment is exact: an iteration
that does not panic has `lineNo < len(lines)`, and a slice length fits in `int`. -/
def loop (lines : List String) (result : Result) (end_ : Int) : Nat → Int → Output
  | 0, lineNo => if lineNo ≤ end_ then ⟨[], .outOfFuel⟩ else ⟨[], .returned⟩
  | fuel + 1, lineNo =>
    if lineNo ≤ end_ then
      match index lines lineNo with
      | none => ⟨[], .panicked lineNo⟩
      | some text =>
        let rest := loop lines result end_ fuel (lineNo + 1)
        ⟨.line lineNo (render result lineNo text) :: rest.printed, rest.status⟩
    else ⟨[], .returned⟩

/-- The value of `start` at the loop. -/
def startOf (result : Result) : Int :=
  let start := goSub result.Range.StartLine 3
  if start ≤ 0 then 1 else start

/-- The value of `end` at the loop. -/
def endOf (lines : List String) (result : Result) : Int :=
  let end_ := goAdd result.Range.EndLine 3
  if end_ ≥ (lines.length : Int) then (lines.length : Int) - 1 else end_

/-- The function `highlightCode`; `file` is what `ioutil.ReadFile` gives for
`result.Range.Filename` (`none` when it fails).  The loop gets a budget of
`len(lines)` iterations. -/
def highlightCode (file : Option String) (result : Result) : Output :=
  match file with
  | none => ⟨[], .returned⟩
  | some data =>
    let lines := fileLines data
    let out := loop lines result (endOf lines result) lines.length (startOf result)
    match out.status with
    | .returned => ⟨out.printed ++ [.blank], .returned⟩
    | s => ⟨out.printed, s⟩

/-- The line numbers written, in order. -/
def lineNos (printed : List Printed) : List Int :=
  printed.filterMap fun p =>
    match p with
    | .line n _ => some n
    | .blank => none

/-- A finding on line 2 of `main.tf`, with an annotation. -/
def sampleResult : Result :=
  ⟨"AWS001", "Resource defines an ingress rule open to the world", ⟨"main.tf", 2, 2⟩, "cidr"⟩

/-- A finding whose range is reversed: `StartLine` 5, `EndLine` 3. -/
def reversedResult : Result :=
  ⟨"AWS001", "Resource defines an ingress rule open to the world", ⟨"main.tf", 5, 3⟩, "cidr"⟩

/-! ## `rootCmd.Run` -/

/-- A Go slice value: the nil slice, or a non-nil slice with its elements. -/
inductive Slice (α : Type) where
  | nil
  | elems (xs : List α)
deriving DecidableEq, Repr

/-- The elements of a slice, in order. -/
def Slice.toList {α : Type} : Slice α → List α
  | .nil => []
  | .elems xs => xs

/-- Go's `len(s)`. -/
def Slice.len {α : Type} (s : Slice α) : Nat := s.toList.length

/-- What `Run` calls outside `main.go`; a Go `error` is its message.
`Blocks` is the type of what the parser returns. -/
structure Env (Blocks : Type) where
  /-- the function `filepath.Abs` -/
  Abs : String → Except String String
  /-- the function `os.Getwd` -/
  Getwd : Except String String
  /-- the method `parser.New().ParseDirectory` -/
  ParseDirectory : String → Except String Blocks
  /-- the method `scanner.New().Scan` -/
  Scan : Blocks → Slice Result
  /-- the function `ioutil.ReadFile`, `none` when it fails -/
  ReadFile : String → Option String
  /-- the JSON text `json.Marshal` produces for one `scanner.Result`, or its error -/
  encode : Result → Except String String

/-- One observable step of `Run`. -/
inductive Effect where
  /-- the call `fmt.Println(s)` -/
  | println (s : String)
  /-- the call `log.Println(s)` -/
  | logPrintln (s : String)
  /-- the call `parser.New().ParseDirectory(dir)` -/
  | parseDirectory (dir : String)
  /-- the call `scanner.New().Scan(blocks)` -/
  | scan
  /-- the call `json.Marshal(results)` -/
  | marshal (results : Slice Result)
  /-- the call `terminal.PrintSuccessf("\nNo problems detected!\n")` -/
  | success
  /-- the call `terminal.PrintErrorf("\n%d potential problems detected:\n\n", len(results))` -/
  | problemCount (count : Nat)
  /-- the call `terminal.PrintErrorf("<underline>Problem %d</underline>\n", i+1)` -/
  | problem (number : Nat)
  /-- the `tml.Printf` of the code, the description and the range of a result -/
  | details (result : Result)
  /-- something written by `highlightCode` -/
  | highlight (p : Printed)
deriving DecidableEq, Repr

/-- The trace of a run and the status passed to the `os.Exit` that ends it
(`none`: no `os.Exit` is reached, because `highlightCode` did not return). -/
structure Outcome where
  trace : List Effect
  exit : Option Int
deriving DecidableEq, Repr

/-- The default value of the `format` flag, from
`rootCmd.Flags().String("format", " ", ...)` in `init`. -/
def formatDefault : String := " "

/-- The call `cmd.Flags().GetString("format")`: the value given on the command line,
or the default when the flag is not given. -/
def GetString (flag : Option String) : String :=
  flag.getD formatDefault

/-- The JSON texts of the elements of a slice, failing with the first error. -/
def encodeAll (encode : Result → Except String String) :
    List Result → Except String (List String)
  | [] => .ok []
  | r :: rs =>
    match encode r with
    | .error err => .error err
    | .ok text =>
      match encodeAll encode rs with
      | .error err => .error err
      | .ok texts => .ok (text :: texts)

/-- Go's `json.Marshal` on a `[]scanner.Result`: a nil slice encodes as `null`, any
other slice as a JSON array of its elements. -/
def Marshal (encode : Result → Except String String) :
    Slice Result → Except String String
  | .nil => .ok "null"
  | .elems xs =>
    match encodeAll encode xs with
    | .error err => .error err
    | .ok texts => .ok ("[" ++ ",".intercalate texts ++ "]")

/-- The choice of the directory: `filepath.Abs(args[0])` when `len(args) == 1`,
`os.Getwd()` otherwise. -/
def resolveDir {Blocks : Type} (env : Env Blocks) (args : List String) :
    Except String String :=
  match args with
  | [arg] => env.Abs arg
  | _ => env.Getwd

/-- The replacement of a nil `results` by `[]scanner.Result{}`. -/
def orEmpty (results : Slice Result) : Slice Result :=
  match results with
  | .nil => .elems []
  | .elems xs => .elems xs

/-- The loop `for i, result := range results` from index `i`; the flag tells whether
every `highlightCode` returned. -/
def report {Blocks : Type} (env : Env Blocks) : Nat → List Result → List Effect × Bool
  | _, [] => ([], true)
  | i, result :: rest =>
    let out := highlightCode (env.ReadFile result.Range.Filename) result
    let here := Effect.problem (i + 1) :: Effect.details result ::
      out.printed.map Effect.highlight
    match out.status with
    | .returned =>
      let more := report env (i + 1) rest
      (here ++ more.1, more.2)
    | _ => (here, false)

/-- The part of `Run` after the scan: the JSON branch, the success message, or the
list of problems. -/
def present {Blocks : Type} (env : Env Blocks) (format : String)
    (results : Slice Result) : Outcome :=
  if format = "json" then
    let results := orEmpty results
    match Marshal env.encode results with
    | .error err => ⟨[.marshal results, .logPrintln err], some 1⟩
    | .ok jsonResults => ⟨[.marshal results, .println jsonResults], some 0⟩
  else if results.len = 0 then
    ⟨[.success], some 0⟩
  else
    let shown := report env 0 results.toList
    ⟨.problemCount results.len :: shown.1, if shown.2 then some 1 else none⟩

/-- The function `rootCmd.Run`; `flag` is the value given for `--format`, if any. -/
def Run {Blocks : Type} (env : Env Blocks) (args : List String)
    (flag : Option String) : Outcome :=
  let format := GetString flag
  match resolveDir env args with
  | .error err => ⟨[.println err], some 1⟩
  | .ok dir =>
    match env.ParseDirectory dir with
    | .error err => ⟨[.parseDirectory dir, .println err], some 1⟩
    | .ok blocks =>
      let out := present env format (env.Scan blocks)
      ⟨.parseDirectory dir :: .scan :: out.trace, out.exit⟩

/-- The values handed to `json.Marshal`, in order. -/
def marshalled (trace : List Effect) : List (Slice Result) :=
  trace.filterMap fun e =>
    match e with
    | .marshal v => some v
    | _ => none

/-- The texts written with `fmt.Println`, in order. -/
def printlns (trace : List Effect) : List String :=
  trace.filterMap fun e =>
    match e with
    | .println text => some text
    | _ => none

/-- The directories handed to `ParseDirectory`, in order. -/
def parsedDirs (trace : List Effect) : List String :=
  trace.filterMap fun e =>
    match e with
    | .parseDirectory dir => some dir
    | _ => none

/-- An effect of the list of problems: a heading, the details of a result, or
something written by `highlightCode`. -/
def Effect.isReport : Effect → Bool
  | .problem _ => true
  | .details _ => true
  | .highlight _ => true
  | _ => false

/-- A sample environment: the working directory is `/work`; `/work/bad` does not parse,
`/work/empty` has no blocks (the scanner then returns the nil slice), any other
directory has two blocks with one finding each; `main.tf` reads `a\nb\nc\n`. -/
def demoEnv : Env Nat where
  Abs := fun path => .ok ("/work/" ++ path)
  Getwd := .ok "/work"
  ParseDirectory := fun dir =>
    if dir = "/work/bad" then .error "main.tf:3,1-1: Unclosed configuration block"
    else if dir = "/work/empty" then .ok 0
    else .ok 2
  Scan := fun blocks =>
    if blocks = 0 then .nil else .elems (List.replicate blocks sampleResult)
  ReadFile := fun name => if name = "main.tf" then some "a\nb\nc\n" else none
  encode := fun result => .ok ("\"" ++ result.Code ++ "\"")

/-- The sample environment with an encoder that fails. -/
def failingEnv : Env Nat :=
  { demoEnv with encode := fun _ => .error "json: unsupported value" }

/-! ## Auxiliary definitions -/

/-- The integers `lo, lo + 1, ...`, `count` of them. -/
def countFrom (lo : Int) : Nat → List Int
  | 0 => []
  | count + 1 => lo :: countFrom (lo + 1) count

/-- The integers from `lo` through `hi`, increasing; empty when `hi < lo`. -/
def upto (lo hi : Int) : List Int :=
  countFrom lo (hi + 1 - lo).toNat

/-- The text at index `n` of `lines` (empty outside the slice). -/
def lineText (lines : List String) (n : Int) : String :=
  lines.getD n.toNat ""

/-- Whether `x` is a value of Go's `int`. -/
def fitsInt (x : Int) : Prop := minInt ≤ x ∧ x ≤ maxInt

instance (x : Int) : Decidable (fitsInt x) :=
  inferInstanceAs (Decidable (minInt ≤ x ∧ x ≤ maxInt))

/-- Whether a rendering marks its line as part of the offending region. -/
def Rendering.inRegion : Rendering → Bool
  | .offendingAnnotated _ _ => true
  | .offending _ => true
  | .context _ => false

/-- The annotation appended to a rendered line, when there is one. -/
def Rendering.appended : Rendering → Option String
  | .offendingAnnotated _ a => some a
  | .offending _ => none
  | .context _ => none

/-! ## Auxiliary facts -/

theorem wrapInt_of_fitsInt (x : Int) (h : fitsInt x) : wrapInt x = x := by
  unfold fitsInt minInt maxInt at h
  unfold wrapInt
  norm_num at h ⊢
  omega

theorem wrapInt_fitsInt (x : Int) : fitsInt (wrapInt x) := by
  unfold fitsInt minInt maxInt wrapInt
  norm_num
  omega

theorem mem_countFrom (count : Nat) : ∀ (lo n : Int),
    n ∈ countFrom lo count ↔ lo ≤ n ∧ n < lo + count := by
  induction count with
  | zero => intro lo n; simp [countFrom]
  | succ k ih =>
    intro lo n
    simp only [countFrom, List.mem_cons, ih]
    push_cast
    omega

theorem pairwise_countFrom (count : Nat) : ∀ lo : Int,
    (countFrom lo count).Pairwise (· < ·) := by
  induction count with
  | zero => intro lo; simp [countFrom]
  | succ k ih =>
    intro lo
    simp only [countFrom, List.pairwise_cons]
    refine ⟨?_, ih (lo + 1)⟩
    intro m hm
    rw [mem_countFrom] at hm
    omega

theorem mem_upto (lo hi n : Int) : n ∈ upto lo hi ↔ lo ≤ n ∧ n ≤ hi := by
  unfold upto
  rw [mem_countFrom]
  omega

theorem pairwise_upto (lo hi : Int) : (upto lo hi).Pairwise (· < ·) :=
  pairwise_countFrom _ _

theorem index_of_lt (lines : List String) (n : Int) (h0 : 0 ≤ n)
    (h1 : n < (lines.length : Int)) : index lines n = some (lineText lines n) := by
  have h : n.toNat < lines.length := by omega
  simp [index, lineText, h0, List.getD, List.getElem?_eq_getElem h]

/-- The loop, run with enough budget from a non-negative `lineNo` towards an
`end` inside the slice, returns after printing the lines `lineNo .. end`. -/
theorem loop_eq (lines : List String) (result : Result) (end_ : Int)
    (hend : end_ < (lines.length : Int)) :
    ∀ (fuel : Nat) (lineNo : Int), 0 ≤ lineNo → (end_ + 1 - lineNo).toNat ≤ fuel →
      loop lines result end_ fuel lineNo =
        ⟨(countFrom lineNo (end_ + 1 - lineNo).toNat).map
            (fun n => Printed.line n (render result n (lineText lines n))),
          Status.returned⟩ := by
  intro fuel
  induction fuel with
  | zero =>
    intro lineNo _ hf
    have h : ¬ lineNo ≤ end_ := by omega
    have hz : (end_ + 1 - lineNo).toNat = 0 := by omega
    simp [loop, h, hz, countFrom]
  | succ k ih =>
    intro lineNo h0 hf
    by_cases h : lineNo ≤ end_
    · have hs : (end_ + 1 - lineNo).toNat = (end_ + 1 - (lineNo + 1)).toNat + 1 := by omega
      have hi := index_of_lt lines lineNo h0 (by omega)
      have hrec := ih (lineNo + 1) (by omega) (by omega)
      rw [hs]
      simp only [loop, h, if_true, hi, hrec, countFrom, List.map_cons]
    · have hz : (end_ + 1 - lineNo).toNat = 0 := by omega
      simp [loop, h, hz, countFrom]

theorem one_le_startOf (result : Result) : 1 ≤ startOf result := by
  unfold startOf
  simp only
  split <;> omega

theorem startOf_eq_max (result : Result) :
    startOf result = max 1 (goSub result.Range.StartLine 3) := by
  unfold startOf
  simp only
  split <;> omega

theorem endOf_lt_length (lines : List String) (result : Result) :
    endOf lines result < (lines.length : Int) := by
  unfold endOf
  simp only
  split <;> omega

theorem endOf_eq_min (lines : List String) (result : Result) :
    endOf lines result = min ((lines.length : Int) - 1) (goAdd result.Range.EndLine 3) := by
  unfold endOf
  simp only
  split <;> omega

/-- The complete output of `highlightCode` on a readable file. -/
theorem highlightCode_some (data : String) (result : Result) :
    highlightCode (some data) result =
      ⟨(upto (startOf result) (endOf (fileLines data) result)).map
          (fun n => Printed.line n (render result n (lineText (fileLines data) n)))
          ++ [Printed.blank],
        Status.returned⟩ := by
  have hlen : 0 < (fileLines data).length := by simp [fileLines]
  have hend := endOf_lt_length (fileLines data) result
  have hstart := one_le_startOf result
  have h := loop_eq (fileLines data) result (endOf (fileLines data) result) hend
    (fileLines data).length (startOf result) (by omega) (by omega)
  simp only [highlightCode, h, upto]

theorem lineNos_map_line (f : Int → Rendering) (l : List Int) :
    lineNos (l.map (fun n => Printed.line n (f n)) ++ [Printed.blank]) = l := by
  induction l with
  | nil => simp [lineNos]
  | cons a t ih =>
    simp only [lineNos, List.map_cons, List.cons_append, List.filterMap_cons] at ih ⊢
    rw [ih]

theorem lineNos_highlightCode (data : String) (result : Result) :
    lineNos (highlightCode (some data) result).printed =
      upto (startOf result) (endOf (fileLines data) result) := by
  rw [highlightCode_some]
  exact lineNos_map_line _ _

theorem mem_printed_highlightCode (data : String) (result : Result) (n : Int)
    (body : Rendering) :
    Printed.line n body ∈ (highlightCode (some data) result).printed ↔
      (startOf result ≤ n ∧ n ≤ endOf (fileLines data) result) ∧
        body = render result n (lineText (fileLines data) n) := by
  rw [highlightCode_some]
  simp only [List.mem_append, List.mem_map, List.mem_singleton, mem_upto]
  constructor
  · rintro (⟨m, hm, he⟩ | he)
    · injection he with h1 h2
      subst h1
      exact ⟨hm, h2.symm⟩
    · cases he
  · rintro ⟨hm, rfl⟩
    exact Or.inl ⟨n, hm, rfl⟩

theorem splitNewline_ne_nil (cs : List Char) : splitNewline cs ≠ [] := by
  cases cs with
  | nil => simp [splitNewline]
  | cons c cs =>
    simp only [splitNewline]
    split
    · simp
    · split <;> simp

theorem splitNewline_length (cs : List Char) :
    (splitNewline cs).length = cs.count '\n' + 1 := by
  induction cs with
  | nil => simp [splitNewline]
  | cons c cs ih =>
    by_cases h : c = '\n'
    · subst h
      simp [splitNewline, ih]
    · have hc : ('\n' == c) = false := by
        simp only [beq_eq_false_iff_ne, ne_eq]
        exact fun e => h e.symm
      simp only [splitNewline, h, if_false, List.count_cons, hc]
      cases hs : splitNewline cs with
      | nil => exact absurd hs (splitNewline_ne_nil cs)
      | cons seg rest =>
        rw [hs] at ih
        simpa [h] using ih

theorem splitNewline_append_newline (cs : List Char) :
    splitNewline (cs ++ ['\n']) = splitNewline cs ++ [[]] := by
  induction cs with
  | nil => simp [splitNewline]
  | cons c cs ih =>
    by_cases h : c = '\n'
    · subst h
      simp [splitNewline, ih]
    · simp only [List.cons_append, splitNewline, h, if_false]
      simp only [List.append_eq] at ih ⊢
      rw [ih]
      cases hs : splitNewline cs with
      | nil => exact absurd hs (splitNewline_ne_nil cs)
      | cons seg rest => simp

theorem Split_length (data : String) :
    (Split data).length = data.data.count '\n' + 1 := by
  simp [Split, splitNewline_length]

theorem render_text (result : Result) (n : Int) (t : String) :
    (render result n t).text = t := by
  unfold render
  split
  · split <;> rfl
  · rfl

/-- When the contents end with a newline, the last element of `lines` is empty. -/
theorem lineText_last (data : String) (hend : data.data.getLast? = some '\n') :
    lineText (fileLines data) ((data.data.count '\n' : Int) + 1) = "" := by
  obtain ⟨pre, hpre⟩ : ∃ pre, data.data = pre ++ ['\n'] := by
    rcases List.eq_nil_or_concat data.data with h | ⟨pre, c, h⟩
    · rw [h] at hend; simp at hend
    · rw [h] at hend
      simp at hend
      exact ⟨pre, by rw [h, hend]; simp⟩
  have hcount : data.data.count '\n' = pre.count '\n' + 1 := by
    rw [hpre]; simp
  have hlen : ((splitNewline pre).map String.mk).length = pre.count '\n' + 1 := by
    simp [splitNewline_length]
  have hn : (((data.data.count '\n' : Nat) : Int) + 1).toNat = pre.count '\n' + 1 + 1 := by
    omega
  unfold lineText
  rw [hn]
  simp only [fileLines, Split, hpre, splitNewline_append_newline, List.map_append,
    List.map_cons, List.map_nil, List.getD_cons_succ]
  rw [← hlen]
  simp [List.getD_append_right]

theorem render_inRegion (result : Result) (n : Int) (t : String) :
    (render result n t).inRegion = true ↔
      result.Range.StartLine ≤ n ∧ n ≤ result.Range.EndLine := by
  unfold render
  split
  · rename_i h
    split <;> simp [Rendering.inRegion] <;> exact h
  · rename_i h
    simp only [Rendering.inRegion]
    constructor
    · intro hf; cases hf
    · intro hc; exact absurd hc h

theorem render_appended (result : Result) (n : Int) (t : String) :
    (render result n t).appended =
      if result.RangeAnnotation ≠ "" ∧ n = result.Range.StartLine ∧ n ≤ result.Range.EndLine
      then some result.RangeAnnotation else none := by
  unfold render
  by_cases h1 : n ≥ result.Range.StartLine ∧ n ≤ result.Range.EndLine
  · by_cases h2 : n = result.Range.StartLine ∧ result.RangeAnnotation ≠ ""
    · have h3 : result.RangeAnnotation ≠ "" ∧ n = result.Range.StartLine ∧
          n ≤ result.Range.EndLine := ⟨h2.2, h2.1, h1.2⟩
      rw [if_pos h1, if_pos h2, if_pos h3]
      rfl
    · have h3 : ¬ (result.RangeAnnotation ≠ "" ∧ n = result.Range.StartLine ∧
          n ≤ result.Range.EndLine) := fun h => h2 ⟨h.2.1, h.1⟩
      rw [if_pos h1, if_neg h2, if_neg h3]
      rfl
  · have h3 : ¬ (result.RangeAnnotation ≠ "" ∧ n = result.Range.StartLine ∧
        n ≤ result.Range.EndLine) := fun h => h1 ⟨by omega, h.2.2⟩
    rw [if_neg h1, if_neg h3]
    rfl

/-! ## The claims about `highlightCode` -/

/-- C1: for every file content and every Result range, the line numbers that
`highlightCode` prints are strictly increasing and are exactly the integers from
`max(1, StartLine-3)` through `min(lastLine, EndLine+3)` (none when the lower bound
exceeds the upper), where `lastLine` is the number of newline-separated segments of
the contents.  `StartLine-3` and `EndLine+3` are the program's `int` expressions
(`goSub`, `goAdd`); they are the exact integers whenever those fit in an `int`,
which is the last part. -/
theorem highlightCode_window (data : String) (result : Result) :
    (lineNos (highlightCode (some data) result).printed).Pairwise (· < ·) ∧
    (∀ n : Int, n ∈ lineNos (highlightCode (some data) result).printed ↔
      max 1 (goSub result.Range.StartLine 3) ≤ n ∧
        n ≤ min ((Split data).length : Int) (goAdd result.Range.EndLine 3)) ∧
    (fitsInt (result.Range.StartLine - 3) → fitsInt (result.Range.EndLine + 3) →
      ∀ n : Int, n ∈ lineNos (highlightCode (some data) result).printed ↔
        max 1 (result.Range.StartLine - 3) ≤ n ∧
          n ≤ min ((Split data).length : Int) (result.Range.EndLine + 3)) := by
  have key : ∀ n : Int, n ∈ lineNos (highlightCode (some data) result).printed ↔
      max 1 (goSub result.Range.StartLine 3) ≤ n ∧
        n ≤ min ((Split data).length : Int) (goAdd result.Range.EndLine 3) := by
    intro n
    rw [lineNos_highlightCode, mem_upto, startOf_eq_max, endOf_eq_min]
    have hl : (((fileLines data).length : Nat) : Int) - 1 = ((Split data).length : Int) := by
      simp [fileLines]
    rw [hl]
  refine ⟨?_, key, ?_⟩
  · rw [lineNos_highlightCode]
    exact pairwise_upto _ _
  · intro hs he n
    have h := key n
    rw [goSub, goAdd, wrapInt_of_fitsInt _ hs, wrapInt_of_fitsInt _ he] at h
    exact h

/-- C2: `highlightCode` never indexes outside `lines`.  For an unreadable file it
returns without printing; for every file content (also the empty one) and every
`StartLine`, `EndLine` it returns (no panic, and the loop ends), and every line
number `lineNo` it prints has `1 <= lineNo <= len(lines)-1`, with `lines[lineNo]`
defined and equal to the text shown. -/
theorem highlightCode_index_in_range (data : String) (result : Result) :
    highlightCode none result = ⟨[], Status.returned⟩ ∧
    (highlightCode (some data) result).status = Status.returned ∧
    (∀ (n : Int) (body : Rendering),
      Printed.line n body ∈ (highlightCode (some data) result).printed →
        1 ≤ n ∧ n ≤ ((fileLines data).length : Int) - 1 ∧
          index (fileLines data) n = some body.text) := by
  refine ⟨rfl, ?_, ?_⟩
  · rw [highlightCode_some]
  · intro n body h
    rw [mem_printed_highlightCode] at h
    obtain ⟨⟨h1, h2⟩, hb⟩ := h
    have hs := one_le_startOf result
    have he := endOf_lt_length (fileLines data) result
    refine ⟨by omega, by omega, ?_⟩
    rw [hb, render_text]
    exact index_of_lt _ _ (by omega) (by omega)

/-- Witness of C1: the file `a\nb\nc\n` and a finding on line 2. -/
theorem highlightCode_window_witness :
    fitsInt (sampleResult.Range.StartLine - 3) ∧ fitsInt (sampleResult.Range.EndLine + 3) ∧
    (∀ n : Int, n ∈ lineNos (highlightCode (some "a\nb\nc\n") sampleResult).printed ↔
        max 1 (sampleResult.Range.StartLine - 3) ≤ n ∧
          n ≤ min ((Split "a\nb\nc\n").length : Int) (sampleResult.Range.EndLine + 3)) :=
  ⟨by decide, by decide,
    (highlightCode_window "a\nb\nc\n" sampleResult).2.2 (by decide) (by decide)⟩

/-- C7 as stated fails: with `StartLine = 5 > EndLine = 3` and a non-empty annotation,
line 5 is printed (as plain context) without the annotation, although the annotation
is non-empty and the line number equals `StartLine`. -/
theorem highlightCode_annotation_counterexample :
    Printed.line 5 (Rendering.context "e") ∈
        (highlightCode (some "a\nb\nc\nd\ne\nf\n") reversedResult).printed ∧
      ¬ ((Rendering.context "e").appended.isSome = true ↔
          (reversedResult.RangeAnnotation ≠ "" ∧ (5 : Int) = reversedResult.Range.StartLine)) := by
  decide

/-- C7 (amended): every printed line is rendered as part of the offending region
exactly when `StartLine <= lineNo <= EndLine`, and as plain context otherwise; the
annotation is appended exactly when it is non-empty, `lineNo` equals `StartLine` and
`lineNo <= EndLine` (the line is in the offending region), and what is appended is the
Result's annotation; when `StartLine <= EndLine` that is: exactly when the annotation
is non-empty and `lineNo` equals `StartLine`.  The annotation is on at most one line. -/
theorem highlightCode_rendering (data : String) (result : Result) :
    (∀ (n : Int) (body : Rendering),
      Printed.line n body ∈ (highlightCode (some data) result).printed →
        (body.inRegion = true ↔ result.Range.StartLine ≤ n ∧ n ≤ result.Range.EndLine) ∧
        (body.inRegion = false → body = Rendering.context (lineText (fileLines data) n)) ∧
        (body.appended.isSome = true ↔
          result.RangeAnnotation ≠ "" ∧ n = result.Range.StartLine ∧
            n ≤ result.Range.EndLine) ∧
        (∀ a, body.appended = some a → a = result.RangeAnnotation) ∧
        (result.Range.StartLine ≤ result.Range.EndLine →
          (body.appended.isSome = true ↔
            result.RangeAnnotation ≠ "" ∧ n = result.Range.StartLine))) ∧
    (∀ (n₁ n₂ : Int) (b₁ b₂ : Rendering),
      Printed.line n₁ b₁ ∈ (highlightCode (some data) result).printed →
      Printed.line n₂ b₂ ∈ (highlightCode (some data) result).printed →
      b₁.appended.isSome = true → b₂.appended.isSome = true → n₁ = n₂ ∧ b₁ = b₂) := by
  have happ : ∀ (n : Int) (t : String), ((render result n t).appended.isSome = true ↔
      result.RangeAnnotation ≠ "" ∧ n = result.Range.StartLine ∧
        n ≤ result.Range.EndLine) := by
    intro n t
    rw [render_appended]
    split
    · rename_i h; simp only [Option.isSome_some, true_iff]; exact h
    · rename_i h; simp only [Option.isSome_none, Bool.false_eq_true, false_iff]; exact h
  constructor
  · intro n body h
    rw [mem_printed_highlightCode] at h
    obtain ⟨_, hb⟩ := h
    subst hb
    refine ⟨render_inRegion _ _ _, ?_, happ _ _, ?_, ?_⟩
    · intro hf
      unfold render at hf ⊢
      split
      · rename_i h
        rw [if_pos h] at hf
        split at hf <;> simp [Rendering.inRegion] at hf
      · rfl
    · intro a ha
      rw [render_appended] at ha
      split at ha
      · injection ha with ha; exact ha.symm
      · cases ha
    · intro hle
      rw [happ]
      constructor
      · intro h; exact ⟨h.1, h.2.1⟩
      · intro h; exact ⟨h.1, h.2, by omega⟩
  · intro n₁ n₂ b₁ b₂ h₁ h₂ a₁ a₂
    rw [mem_printed_highlightCode] at h₁ h₂
    obtain ⟨_, hb₁⟩ := h₁
    obtain ⟨_, hb₂⟩ := h₂
    subst hb₁ hb₂
    rw [happ] at a₁ a₂
    have e : n₁ = n₂ := by omega
    subst e
    exact ⟨rfl, rfl⟩

/-- Witness of C7 (amended): line 2 of `a\nb\nc\n`, with the finding on line 2. -/
theorem highlightCode_rendering_witness :
    Printed.line 2 (Rendering.offendingAnnotated "b" "cidr") ∈
        (highlightCode (some "a\nb\nc\n") sampleResult).printed ∧
      ((Rendering.offendingAnnotated "b" "cidr").appended.isSome = true ↔
        sampleResult.RangeAnnotation ≠ "" ∧ (2 : Int) = sampleResult.Range.StartLine ∧
          (2 : Int) ≤ sampleResult.Range.EndLine) :=
  ⟨by decide,
    ((highlightCode_rendering "a\nb\nc\n" sampleResult).1 2
      (Rendering.offendingAnnotated "b" "cidr") (by decide)).2.2.1⟩

/-- C10: the line count used for clamping is the number of newline characters plus one;
so for contents that end with a newline and have `k` newline-terminated lines the upper
clamp `len(lines)-1` is `k+1`, and whenever `max(1, StartLine-3) <= k+1 <= EndLine+3`
the output has line number `k+1`, shown with empty text.  The bounds are stated with
the program's `int` expressions and, when `StartLine-3` and `EndLine+3` fit in an
`int`, with the exact integers. -/
theorem highlightCode_trailing_newline (data : String) (k : Nat) (result : Result)
    (hend : data.data.getLast? = some '\n') (hk : data.data.count '\n' = k) :
    (Split data).length = data.data.count '\n' + 1 ∧
    ((fileLines data).length : Int) - 1 = (k : Int) + 1 ∧
    endOf (fileLines data) result = min ((k : Int) + 1) (goAdd result.Range.EndLine 3) ∧
    (max 1 (goSub result.Range.StartLine 3) ≤ (k : Int) + 1 →
      (k : Int) + 1 ≤ goAdd result.Range.EndLine 3 →
      ∃ body, Printed.line ((k : Int) + 1) body ∈ (highlightCode (some data) result).printed ∧
        body.text = "") ∧
    (fitsInt (result.Range.StartLine - 3) → fitsInt (result.Range.EndLine + 3) →
      max 1 (result.Range.StartLine - 3) ≤ (k : Int) + 1 →
      (k : Int) + 1 ≤ result.Range.EndLine + 3 →
      ∃ body, Printed.line ((k : Int) + 1) body ∈ (highlightCode (some data) result).printed ∧
        body.text = "") := by
  have hlen : ((fileLines data).length : Int) - 1 = (k : Int) + 1 := by
    simp [fileLines, Split_length, hk]
  have hclamp : endOf (fileLines data) result =
      min ((k : Int) + 1) (goAdd result.Range.EndLine 3) := by
    rw [endOf_eq_min, hlen]
  have key : max 1 (goSub result.Range.StartLine 3) ≤ (k : Int) + 1 →
      (k : Int) + 1 ≤ goAdd result.Range.EndLine 3 →
      ∃ body, Printed.line ((k : Int) + 1) body ∈ (highlightCode (some data) result).printed ∧
        body.text = "" := by
    intro h1 h2
    refine ⟨render result ((k : Int) + 1) (lineText (fileLines data) ((k : Int) + 1)), ?_, ?_⟩
    · rw [mem_printed_highlightCode, startOf_eq_max, hclamp]
      exact ⟨⟨h1, le_min (le_refl _) h2⟩, rfl⟩
    · rw [render_text, ← hk]
      exact lineText_last data hend
  refine ⟨Split_length data, hlen, hclamp, key, ?_⟩
  intro hs he h1 h2
  apply key
  · rw [goSub, wrapInt_of_fitsInt _ hs]; exact h1
  · rw [goAdd, wrapInt_of_fitsInt _ he]; exact h2

/-- Witness of C10: `a\nb\n` has two newline-terminated lines; with the finding on
line 2 the output has a line 3, with empty text. -/
theorem highlightCode_trailing_newline_witness :
    ("a\nb\n" : String).data.getLast? = some '\n' ∧ ("a\nb\n" : String).data.count '\n' = 2 ∧
    ∃ body, Printed.line ((2 : Nat) + 1) body ∈
        (highlightCode (some "a\nb\n") sampleResult).printed ∧ body.text = "" :=
  ⟨by decide, by decide,
    (highlightCode_trailing_newline "a\nb\n" 2 sampleResult (by decide) (by decide)).2.2.2.1
      (by decide) (by decide)⟩


/-! ## Facts about `Run` -/

theorem highlightCode_status (file : Option String) (result : Result) :
    (highlightCode file result).status = Status.returned := by
  cases file with
  | none => rfl
  | some data => rw [highlightCode_some]

theorem report_completes {Blocks : Type} (env : Env Blocks) (results : List Result) :
    ∀ i : Nat, (report env i results).2 = true := by
  induction results with
  | nil => intro i; rfl
  | cons r rs ih =>
    intro i
    simp only [report, highlightCode_status]
    exact ih (i + 1)

theorem report_effects {Blocks : Type} (env : Env Blocks) (results : List Result) :
    ∀ (i : Nat) (e : Effect), e ∈ (report env i results).1 → e.isReport = true := by
  induction results with
  | nil => intro i e h; simp [report] at h
  | cons r rs ih =>
    intro i e h
    simp only [report, highlightCode_status, List.cons_append, List.mem_cons,
      List.mem_append, List.mem_map] at h
    rcases h with h | h | ⟨p, _, h⟩ | h
    · subst h; rfl
    · subst h; rfl
    · subst h; rfl
    · exact ih (i + 1) e h

theorem Run_of_parsed {Blocks : Type} (env : Env Blocks) (args : List String)
    (flag : Option String) (dir : String) (blocks : Blocks)
    (hdir : resolveDir env args = .ok dir) (hparse : env.ParseDirectory dir = .ok blocks) :
    Run env args flag =
      ⟨.parseDirectory dir :: .scan :: (present env (GetString flag) (env.Scan blocks)).trace,
        (present env (GetString flag) (env.Scan blocks)).exit⟩ := by
  simp only [Run, hdir, hparse]

theorem present_text {Blocks : Type} (env : Env Blocks) (format : String)
    (results : Slice Result) (hfmt : format ≠ "json") :
    present env format results =
      if results.len = 0 then ⟨[.success], some 0⟩
      else ⟨.problemCount results.len :: (report env 0 results.toList).1, some 1⟩ := by
  simp only [present, if_neg hfmt, report_completes, if_true]

theorem present_json {Blocks : Type} (env : Env Blocks) (results : Slice Result) :
    present env "json" results =
      match Marshal env.encode (orEmpty results) with
      | .error err => ⟨[.marshal (orEmpty results), .logPrintln err], some 1⟩
      | .ok jsonResults => ⟨[.marshal (orEmpty results), .println jsonResults], some 0⟩ := by
  simp only [present, if_true]

theorem GetString_eq_json (flag : Option String) :
    GetString flag = "json" ↔ flag = some "json" := by
  cases flag with
  | none => simp [GetString, formatDefault]
  | some v => simp [GetString]

theorem orEmpty_of_len_zero (results : Slice Result) (h : results.len = 0) :
    orEmpty results = Slice.elems [] := by
  cases results with
  | nil => rfl
  | elems xs =>
    simp only [Slice.len, Slice.toList, List.length_eq_zero] at h
    subst h
    rfl

theorem orEmpty_of_len_ne_zero (results : Slice Result) (h : results.len ≠ 0) :
    orEmpty results = results := by
  cases results with
  | nil => exact absurd rfl h
  | elems xs => rfl

theorem marshalled_report {Blocks : Type} (env : Env Blocks) (results : List Result)
    (i : Nat) : marshalled (report env i results).1 = [] := by
  unfold marshalled
  rw [List.filterMap_eq_nil_iff]
  intro e he
  have h := report_effects env results i e he
  cases e <;> simp [Effect.isReport] at h <;> rfl

theorem parsedDirs_report {Blocks : Type} (env : Env Blocks) (results : List Result)
    (i : Nat) : parsedDirs (report env i results).1 = [] := by
  unfold parsedDirs
  rw [List.filterMap_eq_nil_iff]
  intro e he
  have h := report_effects env results i e he
  cases e <;> simp [Effect.isReport] at h <;> rfl

theorem parsedDirs_present {Blocks : Type} (env : Env Blocks) (format : String)
    (results : Slice Result) : parsedDirs (present env format results).trace = [] := by
  by_cases hfmt : format = "json"
  · subst hfmt
    rw [present_json]
    split <;> rfl
  · rw [present_text env format results hfmt]
    split
    · rfl
    · simp only [parsedDirs, List.filterMap_cons]
      exact parsedDirs_report env results.toList 0

theorem parsedDirs_Run {Blocks : Type} (env : Env Blocks) (args : List String)
    (flag : Option String) (dir : String) :
    dir ∈ parsedDirs (Run env args flag).trace ↔ resolveDir env args = .ok dir := by
  cases hdir : resolveDir env args with
  | error err => simp [Run, hdir, parsedDirs]
  | ok d =>
    cases hparse : env.ParseDirectory d with
    | error err => simp [Run, hdir, hparse, parsedDirs, eq_comm]
    | ok blocks =>
      rw [Run_of_parsed env args flag d blocks hdir hparse]
      have h := parsedDirs_present env (GetString flag) (env.Scan blocks)
      simp only [parsedDirs, List.filterMap_cons] at h ⊢
      rw [h]
      simp [eq_comm]

/-! ## The claims about `Run` -/

/-- C3: in json mode, when the scan gives a nil or zero-length Result sequence, the
value handed to `json.Marshal` is the non-nil empty slice, it encodes as `[]`, and
`[]` (not `null`) is what is printed; a non-empty sequence is handed over unchanged. -/
theorem Run_json_empty_array {Blocks : Type} (env : Env Blocks) (args : List String)
    (dir : String) (blocks : Blocks)
    (hdir : resolveDir env args = .ok dir) (hparse : env.ParseDirectory dir = .ok blocks) :
    ((env.Scan blocks).len = 0 →
      marshalled (Run env args (some "json")).trace = [Slice.elems []] ∧
      Marshal env.encode (Slice.elems []) = .ok "[]" ∧
      printlns (Run env args (some "json")).trace = ["[]"] ∧
      Effect.println "null" ∉ (Run env args (some "json")).trace) ∧
    ((env.Scan blocks).len ≠ 0 →
      marshalled (Run env args (some "json")).trace = [env.Scan blocks]) := by
  have hrun := Run_of_parsed env args (some "json") dir blocks hdir hparse
  have hget : GetString (some "json") = "json" := rfl
  rw [hget, present_json] at hrun
  constructor
  · intro h0
    rw [orEmpty_of_len_zero _ h0] at hrun
    have hm : Marshal env.encode (Slice.elems []) = .ok "[]" := rfl
    rw [hm] at hrun
    rw [hrun]
    exact ⟨rfl, hm, rfl, by simp⟩
  · intro h0
    rw [orEmpty_of_len_ne_zero _ h0] at hrun
    rw [hrun]
    cases Marshal env.encode (env.Scan blocks) <;> rfl

/-- Witness of C3: the directory `/work/empty`, for which the scanner returns nil. -/
theorem Run_json_empty_array_witness :
    (demoEnv.Scan 0).len = 0 ∧
      printlns (Run demoEnv ["empty"] (some "json")).trace = ["[]"] :=
  ⟨by decide,
    ((Run_json_empty_array demoEnv ["empty"] "/work/empty" 0 rfl rfl).1 (by decide)).2.2.1⟩

/-- C4: when parsing succeeds and the format is json, the exit status is 0 for every
Result sequence whose serialization succeeds, and it is 1 when serialization fails. -/
theorem Run_json_exit {Blocks : Type} (env : Env Blocks) (args : List String)
    (dir : String) (blocks : Blocks)
    (hdir : resolveDir env args = .ok dir) (hparse : env.ParseDirectory dir = .ok blocks) :
    (∀ text, Marshal env.encode (orEmpty (env.Scan blocks)) = .ok text →
      (Run env args (some "json")).exit = some 0) ∧
    (∀ err, Marshal env.encode (orEmpty (env.Scan blocks)) = .error err →
      (Run env args (some "json")).exit = some 1) := by
  have hrun := Run_of_parsed env args (some "json") dir blocks hdir hparse
  have hget : GetString (some "json") = "json" := rfl
  rw [hget, present_json] at hrun
  constructor
  · intro text h
    rw [h] at hrun
    rw [hrun]
  · intro err h
    rw [h] at hrun
    rw [hrun]

/-- Witness of C4: two findings that serialize, and the same two with an encoder
that fails. -/
theorem Run_json_exit_witness :
    (Run demoEnv ["a"] (some "json")).exit = some 0 ∧
      (Run failingEnv ["a"] (some "json")).exit = some 1 :=
  ⟨(Run_json_exit demoEnv ["a"] "/work/a" 2 rfl rfl).1 "[\"AWS001\",\"AWS001\"]" rfl,
    (Run_json_exit failingEnv ["a"] "/work/a" 2 rfl rfl).2 "json: unsupported value"
      rfl⟩

/-- C5: when parsing succeeds and the format is not json, the exit status is 0 exactly
when there are no findings, and it is 1 with one or more findings. -/
theorem Run_text_exit {Blocks : Type} (env : Env Blocks) (args : List String)
    (flag : Option String) (dir : String) (blocks : Blocks)
    (hfmt : GetString flag ≠ "json")
    (hdir : resolveDir env args = .ok dir) (hparse : env.ParseDirectory dir = .ok blocks) :
    ((Run env args flag).exit = some 0 ↔ (env.Scan blocks).len = 0) ∧
    (1 ≤ (env.Scan blocks).len → (Run env args flag).exit = some 1) := by
  have hrun := Run_of_parsed env args flag dir blocks hdir hparse
  rw [present_text env _ _ hfmt] at hrun
  rw [hrun]
  by_cases h0 : (env.Scan blocks).len = 0
  · simp [h0]
  · simp [h0]

/-- Witness of C5: two findings, no format flag. -/
theorem Run_text_exit_witness :
    1 ≤ (demoEnv.Scan 2).len ∧ (Run demoEnv ["a"] none).exit = some 1 :=
  ⟨by decide, (Run_text_exit demoEnv ["a"] none "/work/a" 2 (by decide) rfl rfl).2 (by decide)⟩

/-- C6: if `ParseDirectory` returns an error then, whatever the format, the run prints
that error and nothing else, exits with status 1, and never calls `Scan`. -/
theorem Run_parse_error {Blocks : Type} (env : Env Blocks) (args : List String)
    (flag : Option String) (dir err : String)
    (hdir : resolveDir env args = .ok dir) (hparse : env.ParseDirectory dir = .error err) :
    Run env args flag = ⟨[.parseDirectory dir, .println err], some 1⟩ ∧
    Effect.scan ∉ (Run env args flag).trace ∧
    marshalled (Run env args flag).trace = [] ∧
    (∀ e ∈ (Run env args flag).trace, e.isReport = false) ∧
    (Run env args flag).exit ≠ some 0 := by
  have hrun : Run env args flag = ⟨[.parseDirectory dir, .println err], some 1⟩ := by
    simp only [Run, hdir, hparse]
  rw [hrun]
  refine ⟨rfl, by simp, rfl, ?_, by simp⟩
  intro e he
  simp only [List.mem_cons, List.mem_singleton, List.mem_nil_iff, or_false] at he
  rcases he with he | he <;> subst he <;> rfl

/-- Witness of C6: the directory `/work/bad`, in json mode. -/
theorem Run_parse_error_witness :
    Run demoEnv ["bad"] (some "json") =
      ⟨[.parseDirectory "/work/bad", .println "main.tf:3,1-1: Unclosed configuration block"],
        some 1⟩ :=
  (Run_parse_error demoEnv ["bad"] (some "json") "/work/bad"
    "main.tf:3,1-1: Unclosed configuration block" rfl rfl).1

/-- C8 as stated fails: with the two positional arguments `a` and `b` the directory
that is parsed is the working directory `/work`, not the absolute form `/work/a` of
the directory given, although an argument was given. -/
theorem Run_directory_counterexample :
    parsedDirs (Run demoEnv ["a", "b"] none).trace = ["/work"] ∧
      resolveDir demoEnv ["a"] = .ok "/work/a" ∧
      parsedDirs (Run demoEnv ["a"] none).trace = ["/work/a"] ∧
      parsedDirs (Run demoEnv [] none).trace = ["/work"] :=
  ⟨by decide, rfl, by decide, by decide⟩

/-- C8 (amended): the directory that is parsed is `filepath.Abs` of the argument when
there is exactly one positional argument, and the working directory (`os.Getwd`) for
every other argument list: none, or more than one. -/
theorem Run_directory {Blocks : Type} (env : Env Blocks) (args : List String)
    (flag : Option String) :
    (∀ arg, args = [arg] →
      ∀ dir, dir ∈ parsedDirs (Run env args flag).trace ↔ env.Abs arg = .ok dir) ∧
    (args.length ≠ 1 →
      ∀ dir, dir ∈ parsedDirs (Run env args flag).trace ↔ env.Getwd = .ok dir) := by
  constructor
  · intro arg harg dir
    rw [parsedDirs_Run, harg]
    rfl
  · intro hlen dir
    rw [parsedDirs_Run]
    match args, hlen with
    | [], _ => rfl
    | [_], h => exact absurd rfl h
    | _ :: _ :: _, _ => rfl

/-- Witness of C8 (amended): one argument, and three arguments. -/
theorem Run_directory_witness :
    ("/work/a" ∈ parsedDirs (Run demoEnv ["a"] none).trace ↔
        demoEnv.Abs "a" = .ok "/work/a") ∧
      ("/work" ∈ parsedDirs (Run demoEnv ["a", "b", "c"] none).trace ↔
        demoEnv.Getwd = .ok "/work") :=
  ⟨(Run_directory demoEnv ["a"] none).1 "a" rfl "/work/a",
    (Run_directory demoEnv ["a", "b", "c"] none).2 (by decide) "/work"⟩

/-- C9: the json branch is taken (`json.Marshal` is called) exactly when the value of
the format flag is the string `json`; for every other value, among them the default
(a single space, used when the flag is absent), `JSON` and the empty string, the run
takes the human-readable path: it prints the success message or the list of problems,
and the exit status is 0 exactly when there are no findings, 1 otherwise. -/
theorem Run_format_selection {Blocks : Type} (env : Env Blocks) (args : List String)
    (flag : Option String) (dir : String) (blocks : Blocks)
    (hdir : resolveDir env args = .ok dir) (hparse : env.ParseDirectory dir = .ok blocks) :
    (GetString flag = "json" ↔ flag = some "json") ∧
    (marshalled (Run env args flag).trace ≠ [] ↔ flag = some "json") ∧
    (flag ≠ some "json" →
      ((Run env args flag).exit = some 0 ↔ (env.Scan blocks).len = 0) ∧
      ((env.Scan blocks).len ≠ 0 → (Run env args flag).exit = some 1) ∧
      (Effect.success ∈ (Run env args flag).trace ∨
        Effect.problemCount (env.Scan blocks).len ∈ (Run env args flag).trace)) ∧
    (GetString none = " " ∧
      ∀ f ∈ [none, some " ", some "JSON", some ""], f ≠ some "json") := by
  have hrun := Run_of_parsed env args flag dir blocks hdir hparse
  refine ⟨GetString_eq_json flag, ?_, ?_, rfl, by decide⟩
  · by_cases hf : flag = some "json"
    · subst hf
      have hget : GetString (some "json") = "json" := rfl
      rw [hget, present_json] at hrun
      rw [hrun]
      cases Marshal env.encode (orEmpty (env.Scan blocks)) <;> simp [marshalled]
    · have hfmt : GetString flag ≠ "json" := fun h => hf ((GetString_eq_json flag).1 h)
      rw [present_text env _ _ hfmt] at hrun
      rw [hrun]
      by_cases h0 : (env.Scan blocks).len = 0
      · simp [h0, marshalled, hf]
      · simp only [h0, if_false, marshalled, List.filterMap_cons, ne_eq, hf, iff_false,
          not_not]
        exact marshalled_report env (env.Scan blocks).toList 0
  · intro hf
    have hfmt : GetString flag ≠ "json" := fun h => hf ((GetString_eq_json flag).1 h)
    rw [present_text env _ _ hfmt] at hrun
    rw [hrun]
    by_cases h0 : (env.Scan blocks).len = 0
    · simp [h0]
    · simp [h0]

/-- Witness of C9: the format `JSON` with two findings. -/
theorem Run_format_selection_witness :
    marshalled (Run demoEnv ["a"] (some "JSON")).trace = [] ∧
      (Run demoEnv ["a"] (some "JSON")).exit = some 1 :=
  ⟨by
      have h := (Run_format_selection demoEnv ["a"] (some "JSON") "/work/a" 2 rfl rfl).2.1
      by_contra hne
      exact absurd (h.1 hne) (by decide),
    ((Run_format_selection demoEnv ["a"] (some "JSON") "/work/a" 2 rfl rfl).2.2.1
      (by decide)).2.1 (by decide)⟩

end Tfsec
